import Mathlib

/-!
# Verification of go-simplesync

A shallow embedding of the go-simplesync peer-to-peer file synchronization
daemon, together with proofs about its documented behaviour.

Conventions:
* Bytes are modelled as `Nat` (with explicit `% 256` / `% 2^w` arithmetic
  where overflow matters).
* 64-bit nanosecond timestamps (`ModTime`, `DelTime`) are modelled as `Int`;
  only comparisons are performed on them in the source.
* Filesystem state is modelled as an association list from relative path to
  modification time; the tombstone table (`__deleteTimes`) likewise.
* Cryptographic compression functions (SHA-256, HMAC-SHA256, the AES block
  cipher) are abstracted as function parameters: every theorem holds for all
  instantiations, in particular for the real primitives.
-/

namespace SimpleSync

/-! ## Constants (crypto.go) -/

def KEY_SIZE : Nat := 32
def SALT_SIZE : Nat := 10
def HASH_SIZE : Nat := 32

/-! ## Salted password hash (SHA256WithNewSalt / SHA256WithPredefinedSalt) -/

/-- The constant `letters` of `SHA256WithNewSalt`, as byte values. -/
def letters : List Nat :=
  "0123456789ABCDEFGHIJKLMNOPQRSTUVWXYZabcdefghijklmnopqrstuvwxyz-".toList.map Char.toNat

/-- Mapping `letters[b % byte(len(letters))]`: how one random salt byte is mapped
into the alphabet. -/
def saltMapByte (b : Nat) : Nat := letters.getD (b % letters.length) 0

/-- Model of `SHA256WithPredefinedSalt(data, salt)`:
`salt || "::" || SHA256(salt || "::" || data)`.  The SHA-256 function is
abstracted as the parameter `sha`. `58` is the byte value of `:`. -/
def sha256WithPredefinedSalt (sha : List Nat → List Nat) (data salt : List Nat) : List Nat :=
  let nSalt := salt ++ [58, 58]
  nSalt ++ sha (nSalt ++ data)

/-- Model of `SHA256WithNewSalt(data)` given the 10 random bytes `rand` drawn from the
CSPRNG: maps each byte through `letters[b % len(letters)]` and delegates to
`SHA256WithPredefinedSalt`. -/
def sha256WithNewSalt (sha : List Nat → List Nat) (rand data : List Nat) : List Nat :=
  sha256WithPredefinedSalt sha data (rand.map saltMapByte)

/-! ## Reconnect backoff (Tunnel.createConnections) -/

/-- The sleeps performed before each of the first `n` connection attempts of
`createConnections`, starting from loop state `(firstLoop, currentSleepTime)`.
`none` means the attempt is made with no preceding sleep; `some k` means the
loop sleeps `k` seconds first.  Mirrors the loop body: when `!firstLoop`,
sleep `currentSleepTime`, then `currentSleepTime += 1` capped at `30`;
afterwards `firstLoop = false` unconditionally. -/
def connectSleeps : Nat → Bool → Nat → List (Option Nat)
  | 0, _, _ => []
  | n + 1, firstLoop, cur =>
    if !firstLoop then
      let cur' := if cur + 1 > 30 then 30 else cur + 1
      some cur :: connectSleeps n false cur'
    else
      none :: connectSleeps n false cur

/-- Sleeps before the first `n` attempts of a session, with the source's
initialization `firstLoop := false`, `currentSleepTime := 3`. -/
def sleepsBeforeAttempts (n : Nat) : List (Option Nat) := connectSleeps n false 3

/-! ## Length-prefix framing (Connection.WriteLength / ReadLength) -/

/-- The bytes actually produced by `binary.PutUvarint`: base-128 little-endian
groups, continuation bit `0x80` on every byte but the last. -/
def putUvarint (n : Nat) : List Nat :=
  if h : n < 128 then [n]
  else (n % 128 + 128) :: putUvarint (n / 128)
termination_by n
decreasing_by exact Nat.div_lt_self (by omega) (by omega)

/-- The full 10-byte buffer written by `WriteLength`: `PutUvarint` into a
zeroed buffer of length `binary.MaxVarintLen64 = 10`, all of which is sent. -/
def uvarintBuf (n : Nat) : List Nat :=
  putUvarint n ++ List.replicate (10 - (putUvarint n).length) 0

/-! ## Connection.WriteFull

The underlying `net.Conn.Write` is abstracted as a state-passing function
`write : σ → List Nat → Option String × σ` returning an optional error. -/

/-- Model of `Connection.WriteLength`: writes the 10-byte length buffer. -/
def writeLength {σ : Type} (write : σ → List Nat → Option String × σ)
    (s : σ) (l : Nat) : Option String × σ :=
  write s (uvarintBuf l)

/-- Model of `Connection.WriteFull`: writes the length prefix, then the body.  As in
the source, the error of the length write is overwritten by the error of the
body write (`err := c.WriteLength(l); _, err = c.Write(data); return err`). -/
def writeFull {σ : Type} (write : σ → List Nat → Option String × σ)
    (s : σ) (data : List Nat) : Option String × σ :=
  let r1 := writeLength write s data.length
  let r2 := write r1.2 data
  (r2.1, r2.2)

/-! ## Server state and DELETE (Server.handleDelete) -/

/-- Responder-side state: existing filesystem entries (relative path ↦
modification time) and the process-wide tombstone table `__deleteTimes`. -/
structure ServerFS where
  files : List (String × Int)
  tombs : List (String × Int)
deriving DecidableEq, Repr

/-- Lookup in an association list (a `stat`, or a map read). -/
def lookupTime (m : List (String × Int)) (p : String) : Option Int :=
  m.lookup p

/-- Go map assignment `m[p] = t`. -/
def setTime (m : List (String × Int)) (p : String) (t : Int) : List (String × Int) :=
  (p, t) :: m.filter (fun q => q.1 ≠ p)

/-- Model of `os.RemoveAll(root + p)`: removes the entry at `p` and everything below
it (path separator `/`). -/
def removeAll (m : List (String × Int)) (p : String) : List (String × Int) :=
  m.filter (fun q => ¬(q.1 = p ∨ (p ++ "/").isPrefixOf q.1))

/-- Model of `Server.handleDelete`: stat the path; absent → silently succeed;
`!fi.ModTime().Before(delTime)` → stale, ignore; otherwise record `delTime`
in `__deleteTimes` and `RemoveAll` the path.  (Identical in both source
variants of server.go.) -/
def handleDelete (st : ServerFS) (relPath : String) (delTime : Int) : ServerFS :=
  match lookupTime st.files relPath with
  | none => st
  | some m =>
    if ¬(m < delTime) then st
    else
      { files := removeAll st.files relPath
        tombs := setTime st.tombs relPath delTime }

/-! ## UPDATE with ping (Server.handleUpdate, variant A) -/

/-- Model of `Server.handleUpdate` of the ping variant, from the point of view of the
file-time state.  Inputs: the current files map, the pinged `relPath`, the
follow-up request's `RelPath` and `ModTime`, and `now` (the creation time the
OS stamps on a file created by `os.OpenFile(..., O_CREATE)`).  Output:
`none` on the "Mismatching ping and data requests." error, otherwise
`some (sendFile, files')`. -/
def handleUpdateWithPing (files : List (String × Int)) (relPath : String)
    (req2RelPath : String) (req2ModTime : Int) (now : Int) :
    Option (Bool × List (String × Int)) :=
  -- fexists: the stat performed before the O_CREATE open
  let fexists := (lookupTime files relPath).isSome
  -- os.OpenFile(fqpath, os.O_RDWR|os.O_CREATE, 0666) creates the file when absent
  let files1 := if fexists then files else setTime files relPath now
  if req2RelPath ≠ relPath then none
  else
    -- stat of the (now surely existing) locked file
    let statMod := (lookupTime files1 relPath).getD 0
    -- `stat.ModTime().Before(modTime) || !fexists`
    let send := decide (statMod < req2ModTime) || !fexists
    if send then
      -- transfer happens; after the copy, os.Chtimes(fqpath, modTime, modTime)
      some (true, setTime files1 relPath req2ModTime)
    else
      some (false, files1)

/-- A connection whose very first write (the length prefix) fails and whose
subsequent writes succeed. -/
def demoWrite : Nat → List Nat → Option String × Nat :=
  fun s _ => (if s = 0 then some "length write failed" else none, s + 1)

/-! ## Outbound tunnel: events and requests (tunnel.go) -/

/-- Request-type enumeration, variant A (tunnel.go / part_000). -/
inductive ReqType where
  | CREATE_FILE
  | CREATE_DIR
  | UPDATE_PING
  | UPDATE
  | DELETE
deriving DecidableEq, Repr

/-- Request record `FileInfoReq`. -/
structure FileInfoReq where
  reqType : ReqType
  relPath : String
  modTime : Int
  delTime : Int
deriving DecidableEq, Repr

/-- The fsnotify operations distinguished by `handleEvent` (modelled as a
single flag; the synthetic events of `Watch` carry exactly one flag). -/
inductive FsOp where
  | Create
  | Write
  | Remove
  | Rename
  | Chmod
deriving DecidableEq, Repr

/-- Environment of the tunnel's event handlers: the local filesystem and the
responder's replies.  `stat p = none` models `os.IsNotExist`; `some b` an
existing entry with `IsDir() = b`.  I/O errors of the encrypted channel are
not modelled (they abort the whole `Watch`). -/
structure TunnelEnv where
  stat : String → Option Bool
  modTimeOf : String → Int
  pingOK : String → Bool
  openOK : String → Bool
  now : Int

/-- Model of Go `strings.TrimPrefix`. -/
def trimPrefix (s pre : String) : String :=
  if pre.data.isPrefixOf s.data then String.mk (s.data.drop pre.data.length) else s

/-- Splitting a character list on a separator, with the semantics of Go
`strings.Split` (and of `String.splitOn` for a one-character separator). -/
def splitSep (sep : Char) : List Char → List (List Char)
  | [] => [[]]
  | c :: cs =>
    if c = sep then [] :: splitSep sep cs
    else
      match splitSep sep cs with
      | [] => [[c]]
      | g :: gs => (c :: g) :: gs

/-- Joining components with a separator (inverse of `splitSep`). -/
def joinSep (sep : Char) : List (List Char) → List Char
  | [] => []
  | [g] => g
  | g :: gs => g ++ sep :: joinSep sep gs

/-- Stack processing of the components of a path: empty and `"."` components
are dropped; `".."` pops a non-`".."` stack top, is kept when the path is not
rooted and there is nothing to pop, and is dropped at the root.  `acc` is the
stack, in reverse. -/
def cleanComps (rooted : Bool) (acc : List (List Char)) :
    List (List Char) → List (List Char)
  | [] => acc.reverse
  | c :: rest =>
    if c = [] ∨ c = ['.'] then cleanComps rooted acc rest
    else if c = ['.', '.'] then
      match acc with
      | top :: accRest =>
        if top = ['.', '.'] then cleanComps rooted (c :: acc) rest
        else cleanComps rooted accRest rest
      | [] =>
        if rooted then cleanComps rooted [] rest
        else cleanComps rooted [['.', '.']] rest
    else cleanComps rooted (c :: acc) rest

/-- Model of Go `filepath.Clean` (separator `/`), in its equivalent
component-stack formulation: split on `/`, resolve `.` and `..`, rejoin;
the result of cleaning an empty path or a path that cleans to nothing
is `"."`. -/
def cleanPath (p : String) : String :=
  if p = "" then "."
  else
    let rooted := p.data.head? = some '/'
    let stack := cleanComps rooted [] (splitSep '/' p.data)
    let out := (if rooted then ['/'] else []) ++ joinSep '/' stack
    if out = [] then "." else String.mk out

/-- Model of `Tunnel.handleEventCreate` (state: sent requests, tombstone
table, error): drops the tombstone, stats the path (absent → silently done),
and sends one CREATE_DIR / CREATE_FILE request with the entry's mod-time. -/
def handleEventCreate (env : TunnelEnv) (relPath : String)
    (tombs : List (String × Int)) :
    List FileInfoReq × List (String × Int) × Option String :=
  let tombs1 := tombs.filter (fun q => q.1 ≠ relPath)
  match env.stat relPath with
  | none => ([], tombs1, none)
  | some isDir =>
    let rt := if isDir then ReqType.CREATE_DIR else ReqType.CREATE_FILE
    ([⟨rt, relPath, env.modTimeOf relPath, 0⟩], tombs1, none)

/-- Model of `Tunnel.handleEventUpdate`: drops the tombstone, sends the
UPDATE_PING request; a failed ping is an error, a failed local open silently
ends the handler, otherwise the UPDATE request with the locked file's
mod-time follows (the file body itself is not a request). -/
def handleEventUpdate (env : TunnelEnv) (relPath : String)
    (tombs : List (String × Int)) :
    List FileInfoReq × List (String × Int) × Option String :=
  let tombs1 := tombs.filter (fun q => q.1 ≠ relPath)
  let pingReq : FileInfoReq := ⟨ReqType.UPDATE_PING, relPath, 0, 0⟩
  if ¬env.pingOK relPath then ([pingReq], tombs1, some "Update ping failed.")
  else if ¬env.openOK relPath then ([pingReq], tombs1, none)
  else ([pingReq, ⟨ReqType.UPDATE, relPath, env.modTimeOf relPath, 0⟩], tombs1, none)

/-- Model of `Tunnel.handleEventDelete`: reuses the remembered deletion time
if the path is already tombstoned, otherwise records `now`; sends one DELETE
request with that time. -/
def handleEventDelete (env : TunnelEnv) (relPath : String)
    (tombs : List (String × Int)) :
    List FileInfoReq × List (String × Int) × Option String :=
  match tombs.lookup relPath with
  | some t => ([⟨ReqType.DELETE, relPath, 0, t⟩], tombs, none)
  | none => ([⟨ReqType.DELETE, relPath, 0, env.now⟩], setTime tombs relPath env.now, none)

/-- Model of `Tunnel.handleEvent`: strips the root prefix (an event outside
the root is ignored), rejects paths that differ from their normalization
with the "Path not clean" error, ignores events on the root itself, then
dispatches on the operation (REMOVE/RENAME → delete, CREATE → create,
WRITE → update, anything else ignored). -/
def handleEvent (env : TunnelEnv) (root name : String) (op : FsOp)
    (tombs : List (String × Int)) :
    List FileInfoReq × List (String × Int) × Option String :=
  let relPath := trimPrefix name root
  if relPath = name then ([], tombs, none)
  else
    let cleanedPath := cleanPath relPath
    if cleanedPath ≠ relPath then ([], tombs, some "Path not clean")
    else if cleanedPath = "" ∨ cleanedPath = "." then ([], tombs, none)
    else
      match op with
      | .Remove => handleEventDelete env relPath tombs
      | .Rename => handleEventDelete env relPath tombs
      | .Create => handleEventCreate env relPath tombs
      | .Write => handleEventUpdate env relPath tombs
      | .Chmod => ([], tombs, none)

/-- Runs `handleEvent` over a list of synthetic events with a common
operation, threading the tombstone table, collecting the sent requests, and
stopping at the first error (which poisons the connection). -/
def runEvents (env : TunnelEnv) (root : String) (op : FsOp) :
    List String → List (String × Int) →
    List FileInfoReq × List (String × Int) × Option String
  | [], tombs => ([], tombs, none)
  | n :: rest, tombs =>
    let r := handleEvent env root n op tombs
    match r.2.2 with
    | some e => (r.1, r.2.1, some e)
    | none =>
      let r' := runEvents env root op rest r.2.1
      (r.1 ++ r'.1, r'.2.1, r'.2.2)

/-- Model of the initial sync of `Tunnel.Watch`: synthetic CREATE events for
every enumerated directory, then synthetic REMOVE events for every tombstone
table entry, then synthetic WRITE events for every enumerated file; each
event's name is `t.Root + path`. -/
def watchInitialSync (env : TunnelEnv) (root : String)
    (dirs files : List String) (tombs0 : List (String × Int)) :
    List FileInfoReq × List (String × Int) × Option String :=
  let r1 := runEvents env root .Create (dirs.map (root ++ ·)) tombs0
  match r1.2.2 with
  | some e => (r1.1, r1.2.1, some e)
  | none =>
    let r2 := runEvents env root .Remove (r1.2.1.map (fun q => root ++ q.1)) r1.2.1
    match r2.2.2 with
    | some e => (r1.1 ++ r2.1, r2.2.1, some e)
    | none =>
      let r3 := runEvents env root .Write (files.map (root ++ ·)) r2.2.1
      (r1.1 ++ r2.1 ++ r3.1, r3.2.1, r3.2.2)

/-- A concrete environment where every path exists as a directory for stat
purposes of creates, pings succeed and opens succeed. -/
def demoEnv : TunnelEnv :=
  { stat := fun _ => some true
    modTimeOf := fun _ => 0
    pingOK := fun _ => true
    openOK := fun _ => true
    now := 0 }

/-! ## Directory enumeration (files.go ListItems) -/

/-- The path separator (`os.PathSeparator` on the target platform). -/
def pathSep : Char := '/'

/-- A directory tree as produced by `ioutil.ReadDir`: the plain-file names
and the sub-directory entries of one directory.  Splitting each entry list
by kind preserves the relative order within each kind, which is all that
the two output sequences of `ListItems` depend on.  Names and paths are
character lists. -/
inductive FSTree where
  | node : List (List Char) → List (List Char × FSTree) → FSTree

mutual

/-- Model of `ListItems(root, relPath)`: the file and directory names of the
current directory prefixed by `relPath`, followed by the recursive listings
of each sub-directory `d` under `relPath + d.Name() + "/"`, appended in
order. -/
def listItems : FSTree → List Char → List (List Char) × List (List Char)
  | .node fs ds, relPath =>
    let rest := walkDirs ds relPath
    (fs.map (fun n => relPath ++ n) ++ rest.1,
     ds.map (fun p => relPath ++ p.1) ++ rest.2)

/-- The "Walk directories" loop of `ListItems`: recursive calls on each
sub-directory, results appended in order. -/
def walkDirs : List (List Char × FSTree) → List Char → List (List Char) × List (List Char)
  | [], _ => ([], [])
  | d :: rest, relPath =>
    let sub := listItems d.2 (relPath ++ d.1 ++ [pathSep])
    let rest' := walkDirs rest relPath
    (sub.1 ++ rest'.1, sub.2 ++ rest'.2)

end

/-- No-duplicates check on a list of names. -/
def nodupBy : List (List Char) → Bool
  | [] => true
  | x :: xs => !(xs.contains x) && nodupBy xs

mutual

/-- Well-formedness of a directory tree, true of any real directory: sibling
names are pairwise distinct and no name contains the path separator. -/
def wfTree : FSTree → Bool
  | .node _ ds => nodupBy (ds.map Prod.fst) && wfChildren ds

/-- Well-formedness of a list of sub-directory entries. -/
def wfChildren : List (List Char × FSTree) → Bool
  | [] => true
  | p :: rest => !(p.1.contains pathSep) && wfTree p.2 && wfChildren rest

end

/-- Two positions in a directory listing are compatibly ordered when the
earlier path is not a strict descendant (path-extension) of the later one. -/
def notBelow (a b : List Char) : Prop := ∀ s, a ≠ b ++ pathSep :: s

/-- A two-level demo tree: a directory `a` containing a directory `b`. -/
def demoTree : FSTree :=
  FSTree.node [] [(['a'], FSTree.node [] [(['b'], FSTree.node [] [])])]

/-! ## Encrypted framed transport (connection.go / crypto.go)

The cipher and MAC primitives are abstracted:
* `ofb encKey iv i` is byte `i` of the AES-OFB keystream for `(encKey, iv)`
  — the write and the read side derive the same keystream from the same key
  and IV, and OFB encryption and decryption are the same XOR;
* `hmac macKey data` is the HMAC-SHA256 tag.
Every theorem below holds for all instantiations of these parameters, in
particular for the real primitives. -/

/-- XOR of a byte sequence against the keystream starting at position `i`
(the `cipher.StreamWriter`/`StreamReader` XOR of OFB mode). -/
def xorStream (ks : Nat → Nat) : Nat → List Nat → List Nat
  | _, [] => []
  | i, b :: rest => (b ^^^ ks i) :: xorStream ks (i + 1) rest

/-- Model of the loop of `binary.Uvarint`: `i` is the byte index, `s` the
shift, `x` the accumulator.  `none` models the two error returns of
`ReadLength` (`n <= 0`): buffer exhausted without a final byte, or overflow
(a 10th byte greater than 1). -/
def uvarintCore : List Nat → Nat → Nat → Nat → Option (Nat × Nat)
  | [], _, _, _ => none
  | b :: rest, i, s, x =>
    if b < 128 then
      if i = 9 ∧ b > 1 then none
      else some (x ||| (b <<< s), i + 1)
    else
      uvarintCore rest (i + 1) (s + 7) (x ||| ((b % 128) <<< s))

/-- Model of `binary.Uvarint` on a buffer: the decoded value and the number
of bytes consumed, or `none` on the error cases. -/
def uvarint (buf : List Nat) : Option (Nat × Nat) :=
  uvarintCore buf 0 0 0

/-- Model of `Connection.ReadLength` on an incoming byte stream:
`io.ReadFull` a 10-byte buffer, then `Uvarint`-decode it. -/
def readLength (stream : List Nat) : Option (Nat × List Nat) :=
  if 10 ≤ stream.length then
    match uvarint (stream.take 10) with
    | some (l, _) => some (l, stream.drop 10)
    | none => none
  else none

/-- Model of `EncryptedConnection.WriteEncryptedStream(source, l)`: the
length prefix, the fresh 16-byte IV, the OFB-encrypted source bytes, and the
HMAC of the source bytes (the `TeeReader` feeds the plaintext to the MAC). -/
def writeEncryptedStream (ofb : List Nat → List Nat → Nat → Nat)
    (hmac : List Nat → List Nat → List Nat) (encKey macKey iv : List Nat)
    (source : List Nat) (l : Nat) : List Nat :=
  uvarintBuf l ++ iv ++ xorStream (ofb encKey iv) 0 source ++ hmac macKey source

/-- Model of `WriteEncryptedFull(data)`: `WriteEncryptedStream` over a reader
of `data` with declared length `len(data)`. -/
def writeEncryptedFull (ofb : List Nat → List Nat → Nat → Nat)
    (hmac : List Nat → List Nat → List Nat) (encKey macKey iv : List Nat)
    (data : List Nat) : List Nat :=
  writeEncryptedStream ofb hmac encKey macKey iv data data.length

/-- Model of `EncryptedConnection.ReadEncryptedStream`: read the length, the
16-byte IV, `io.CopyN` exactly `int64(size)` bytes through the decrypting
`TeeReader` (a size at or above `2^63` becomes a negative `int64` and copies
nothing), read the 32-byte MAC and compare it in constant time against the
HMAC of the decrypted plaintext; a mismatch is the "hashes do not match"
error.  Returns the plaintext delivered to the target and the unconsumed
stream. -/
def readEncryptedStream (ofb : List Nat → List Nat → Nat → Nat)
    (hmac : List Nat → List Nat → List Nat) (encKey macKey : List Nat)
    (stream : List Nat) : Option (List Nat × List Nat) :=
  match readLength stream with
  | none => none
  | some (size, s1) =>
    if 16 ≤ s1.length then
      let iv := s1.take 16
      let s2 := s1.drop 16
      let readCount := if size < 2 ^ 63 then size else 0
      if readCount ≤ s2.length then
        let ct := s2.take readCount
        let s3 := s2.drop readCount
        let pt := xorStream (ofb encKey iv) 0 ct
        if 32 ≤ s3.length then
          let sentMac := s3.take 32
          let s4 := s3.drop 32
          if sentMac = hmac macKey pt then some (pt, s4) else none
        else none
      else none
    else none

/-- Model of `ReadEncryptedFull`: `ReadEncryptedStream` into a buffer, whose
contents are returned when no error occurred. -/
def readEncryptedFull (ofb : List Nat → List Nat → Nat → Nat)
    (hmac : List Nat → List Nat → List Nat) (encKey macKey : List Nat)
    (stream : List Nat) : Option (List Nat) :=
  (readEncryptedStream ofb hmac encKey macKey stream).map Prod.fst

/-- A demo keystream for witnesses. -/
def demoOfb : List Nat → List Nat → Nat → Nat := fun _ _ i => (i + 7) % 256

/-- A demo MAC (constant 32-byte output) for witnesses. -/
def demoHmac : List Nat → List Nat → List Nat :=
  fun _ x => List.replicate 32 (x.length % 256)

/-! ## Basic lemmas about the association-list and path operations -/

theorem lookupTime_setTime_self (m : List (String × Int)) (p : String) (t : Int) :
    lookupTime (setTime m p t) p = some t := by
  simp [lookupTime, setTime, List.lookup]

theorem trimPrefix_append (root rest : String) :
    trimPrefix (root ++ rest) root = rest := by
  have hdata : (root ++ rest).data = root.data ++ rest.data := rfl
  rw [trimPrefix, hdata]
  rw [if_pos (by simp [List.isPrefixOf_iff_prefix])]
  simp

theorem ne_append_self (root rest : String) (hroot : root ≠ "") :
    rest ≠ root ++ rest := by
  intro he
  apply hroot
  have hd : rest.data = root.data ++ rest.data := congrArg String.data he
  have h2 : root.data = [] := by
    have := congrArg List.length hd
    simp at this
    exact List.eq_nil_of_length_eq_zero this
  have : root = String.mk root.data := rfl
  rw [this, h2]

theorem filter_ne_of_lookup_none (t : List (String × Int)) (p : String)
    (h : t.lookup p = none) : t.filter (fun q => q.1 ≠ p) = t := by
  induction t with
  | nil => rfl
  | cons q rest ih =>
      rw [List.lookup] at h
      cases hbe : p == q.1 with
      | true => rw [hbe] at h; simp at h
      | false =>
          rw [hbe] at h
          have hq : q.1 ≠ p := by
            intro he; rw [he] at hbe; simp at hbe
          have hrest : List.lookup p rest = none := h
          rw [List.filter_cons, if_pos (by simp [hq]), ih hrest]

theorem lookup_eq_of_mem_nodup (t : List (String × Int)) (q : String × Int)
    (hn : (t.map Prod.fst).Nodup) (hq : q ∈ t) : t.lookup q.1 = some q.2 := by
  induction t with
  | nil => cases hq
  | cons r rest ih =>
      rw [List.map, List.nodup_cons] at hn
      rcases List.mem_cons.mp hq with heq | hmem
      · subst heq
        simp [List.lookup]
      · have hne : q.1 ≠ r.1 := by
          intro he
          exact hn.1 (he ▸ List.mem_map_of_mem Prod.fst hmem)
        have hb : (q.1 == r.1) = false := by simp [hne]
        rw [List.lookup, hb]
        show List.lookup q.1 rest = some q.2
        exact ih hn.2 hmem

/-- Reduction of `handleEvent` for an in-root event on a clean, non-root
relative path: the event dispatches to the per-operation handler. -/
theorem handleEvent_clean (env : TunnelEnv) (root p : String) (op : FsOp)
    (tombs : List (String × Int)) (hroot : root ≠ "")
    (hc : cleanPath p = p) (hp0 : p ≠ "") (hpd : p ≠ ".") :
    handleEvent env root (root ++ p) op tombs =
      match op with
      | .Remove => handleEventDelete env p tombs
      | .Rename => handleEventDelete env p tombs
      | .Create => handleEventCreate env p tombs
      | .Write => handleEventUpdate env p tombs
      | .Chmod => ([], tombs, none) := by
  cases op <;>
    simp [handleEvent, trimPrefix_append, ne_append_self root p hroot, hc, hp0, hpd]

/-- Phase 1 of the initial sync: synthetic CREATE events over directories
produce exactly one CREATE_DIR request per directory, in enumeration order,
and (when no directory is tombstoned) leave the tombstone table unchanged. -/
theorem runEvents_create (env : TunnelEnv) (root : String) (dirs : List String)
    (tombs : List (String × Int)) (hroot : root ≠ "")
    (hd : ∀ d ∈ dirs, cleanPath d = d ∧ d ≠ "" ∧ d ≠ "." ∧
      env.stat d = some true ∧ tombs.lookup d = none) :
    runEvents env root .Create (dirs.map (root ++ ·)) tombs =
      (dirs.map (fun d => ⟨ReqType.CREATE_DIR, d, env.modTimeOf d, 0⟩), tombs, none) := by
  induction dirs with
  | nil => rfl
  | cons d rest ih =>
      obtain ⟨hc, hp0, hpd, hst, hlk⟩ := hd d (List.mem_cons_self d rest)
      have hstep := handleEvent_clean env root d .Create tombs hroot hc hp0 hpd
      simp only [List.map_cons, runEvents, hstep, handleEventCreate, hst,
        filter_ne_of_lookup_none tombs d hlk]
      rw [ih (fun x hx => hd x (List.mem_cons_of_mem d hx))]
      simp

/-- Phase 2 of the initial sync: synthetic REMOVE events over tombstone-table
entries produce exactly one DELETE request per entry, carrying the remembered
deletion time, and leave the table unchanged. -/
theorem runEvents_remove (env : TunnelEnv) (root : String)
    (es tombs : List (String × Int)) (hroot : root ≠ "")
    (hes : ∀ q ∈ es, cleanPath q.1 = q.1 ∧ q.1 ≠ "" ∧ q.1 ≠ "." ∧
      tombs.lookup q.1 = some q.2) :
    runEvents env root .Remove (es.map (fun q => root ++ q.1)) tombs =
      (es.map (fun q => ⟨ReqType.DELETE, q.1, 0, q.2⟩), tombs, none) := by
  induction es with
  | nil => rfl
  | cons q rest ih =>
      obtain ⟨hc, hp0, hpd, hlk⟩ := hes q (List.mem_cons_self q rest)
      have hstep := handleEvent_clean env root q.1 .Remove tombs hroot hc hp0 hpd
      simp only [List.map_cons, runEvents, hstep, handleEventDelete, hlk]
      rw [ih (fun x hx => hes x (List.mem_cons_of_mem q hx))]
      simp

/-- Phase 3 of the initial sync: synthetic WRITE events over files produce,
per file and in enumeration order, the UPDATE_PING request followed by the
UPDATE request, with no error. -/
theorem runEvents_write (env : TunnelEnv) (root : String) (fs : List String)
    (tombs : List (String × Int)) (hroot : root ≠ "")
    (hf : ∀ f ∈ fs, cleanPath f = f ∧ f ≠ "" ∧ f ≠ "." ∧
      env.pingOK f = true ∧ env.openOK f = true) :
    (runEvents env root .Write (fs.map (root ++ ·)) tombs).1 =
      fs.flatMap (fun f =>
        [⟨ReqType.UPDATE_PING, f, 0, 0⟩, ⟨ReqType.UPDATE, f, env.modTimeOf f, 0⟩]) ∧
    (runEvents env root .Write (fs.map (root ++ ·)) tombs).2.2 = none := by
  induction fs generalizing tombs with
  | nil => exact ⟨rfl, rfl⟩
  | cons f rest ih =>
      obtain ⟨hc, hp0, hpd, hping, hopen⟩ := hf f (List.mem_cons_self f rest)
      have hstep := handleEvent_clean env root f .Write tombs hroot hc hp0 hpd
      have ihr := ih (tombs.filter (fun q => q.1 ≠ f))
        (fun x hx => hf x (List.mem_cons_of_mem f hx))
      constructor
      · simp only [List.map_cons, runEvents, hstep, handleEventUpdate, hping, hopen]
        simp only [not_true_eq_false, if_false, ihr.2, ihr.1]
        try simp
      · simp only [List.map_cons, runEvents, hstep, handleEventUpdate, hping, hopen]
        simp only [not_true_eq_false, if_false, ihr.2]
        try simp [ihr.2]

/-! ## Lemmas for the directory-listing order -/

theorem wfChildren_mem (ds : List (List Char × FSTree)) (hch : wfChildren ds = true) :
    ∀ p ∈ ds, pathSep ∉ p.1 ∧ wfTree p.2 = true := by
  induction ds with
  | nil => intro p hp; cases hp
  | cons d rest ih =>
      rw [wfChildren] at hch
      simp only [Bool.and_eq_true] at hch
      intro p hp
      rcases List.mem_cons.mp hp with rfl | hp
      · exact ⟨by simpa using hch.1.1, hch.1.2⟩
      · exact ih hch.2 p hp

theorem nodupBy_cons (x : List Char) (xs : List (List Char))
    (h : nodupBy (x :: xs) = true) : x ∉ xs ∧ nodupBy xs = true := by
  rw [nodupBy] at h
  simp only [Bool.and_eq_true] at h
  exact ⟨by simpa using h.1, h.2⟩

theorem seg_append_inj (n₁ : List Char) :
    ∀ (n₂ r₁ r₂ : List Char), pathSep ∉ n₁ → pathSep ∉ n₂ →
      n₁ ++ pathSep :: r₁ = n₂ ++ pathSep :: r₂ → n₁ = n₂ := by
  induction n₁ with
  | nil =>
      intro n₂ r₁ r₂ h1 h2 he
      cases n₂ with
      | nil => rfl
      | cons c cs =>
          simp only [List.nil_append, List.cons_append, List.cons.injEq] at he
          exact absurd (by rw [he.1]; exact List.mem_cons_self c cs) h2
  | cons c cs ih =>
      intro n₂ r₁ r₂ h1 h2 he
      cases n₂ with
      | nil =>
          simp only [List.nil_append, List.cons_append, List.cons.injEq] at he
          exact absurd (by rw [← he.1]; exact List.mem_cons_self c cs) h1
      | cons c' cs' =>
          simp only [List.cons_append, List.cons.injEq] at he
          have h1' : pathSep ∉ cs := fun hm => h1 (List.mem_cons_of_mem c hm)
          have h2' : pathSep ∉ cs' := fun hm => h2 (List.mem_cons_of_mem c' hm)
          rw [he.1, ih cs' r₁ r₂ h1' h2' he.2]

mutual

theorem mem_listItems_dirs (t : FSTree) (pre q : List Char)
    (hq : q ∈ (listItems t pre).2) : ∃ s, q = pre ++ s := by
  match t with
  | .node fs ds =>
    simp only [listItems] at hq
    rcases List.mem_append.mp hq with hm | hm
    · obtain ⟨p, _, hp⟩ := List.mem_map.mp hm
      exact ⟨p.1, hp.symm⟩
    · obtain ⟨p, sq, _, hs⟩ := mem_walkDirs ds pre q hm
      exact ⟨p.1 ++ pathSep :: sq, by rw [hs, List.append_assoc]⟩

theorem mem_walkDirs (ds : List (List Char × FSTree)) (pre q : List Char)
    (hq : q ∈ (walkDirs ds pre).2) :
    ∃ p s, p ∈ ds ∧ q = pre ++ p.1 ++ pathSep :: s := by
  match ds with
  | [] => simp only [walkDirs] at hq; cases hq
  | d :: rest =>
    simp only [walkDirs] at hq
    rcases List.mem_append.mp hq with hm | hm
    · obtain ⟨sq, hs⟩ := mem_listItems_dirs d.2 (pre ++ d.1 ++ [pathSep]) q hm
      exact ⟨d, sq, List.mem_cons_self d rest, by rw [hs]; simp⟩
    · obtain ⟨p, sq, hp, hs⟩ := mem_walkDirs rest pre q hm
      exact ⟨p, sq, List.mem_cons_of_mem d hp, hs⟩

end

mutual

theorem listItems_dirs_pairwise (t : FSTree) (pre : List Char)
    (hwf : wfTree t = true) : (listItems t pre).2.Pairwise notBelow := by
  match t with
  | .node fs ds =>
    rw [wfTree] at hwf
    simp only [Bool.and_eq_true] at hwf
    obtain ⟨hnd, hch⟩ := hwf
    simp only [listItems]
    refine List.pairwise_append.mpr ⟨?_, walkDirs_pairwise ds pre hnd hch, ?_⟩
    · refine List.pairwise_map.mpr (List.pairwise_of_forall_mem_list ?_)
      intro p hp p' hp' s he
      have he' : pre ++ p.1 = pre ++ (p'.1 ++ pathSep :: s) := by
        rw [he, List.append_assoc]
      have hp1 := List.append_cancel_left he'
      have hsep : pathSep ∈ p.1 := by
        rw [hp1]; exact List.mem_append.mpr (Or.inr (List.mem_cons_self _ _))
      exact (wfChildren_mem ds hch p hp).1 hsep
    · intro a ha b hb s he
      obtain ⟨p, hp, hpa⟩ := List.mem_map.mp ha
      obtain ⟨e, sb, heb, hbs⟩ := mem_walkDirs ds pre b hb
      rw [← hpa, hbs] at he
      have he' : pre ++ p.1 = pre ++ (e.1 ++ pathSep :: (sb ++ pathSep :: s)) := by
        rw [he]; simp
      have hp1 := List.append_cancel_left he'
      have hsep : pathSep ∈ p.1 := by
        rw [hp1]; exact List.mem_append.mpr (Or.inr (List.mem_cons_self _ _))
      exact (wfChildren_mem ds hch p hp).1 hsep

theorem walkDirs_pairwise (ds : List (List Char × FSTree)) (pre : List Char)
    (hnd : nodupBy (ds.map Prod.fst) = true) (hch : wfChildren ds = true) :
    (walkDirs ds pre).2.Pairwise notBelow := by
  match ds with
  | [] => simp [walkDirs]
  | d :: rest =>
    rw [List.map] at hnd
    obtain ⟨hd_nin, hnd'⟩ := nodupBy_cons _ _ hnd
    rw [wfChildren] at hch
    simp only [Bool.and_eq_true] at hch
    obtain ⟨⟨hdsep, hdwf⟩, hch'⟩ := hch
    have hdsep' : pathSep ∉ d.1 := by simpa using hdsep
    simp only [walkDirs]
    refine List.pairwise_append.mpr
      ⟨listItems_dirs_pairwise d.2 _ hdwf, walkDirs_pairwise rest pre hnd' hch', ?_⟩
    intro a ha b hb s he
    obtain ⟨sa, hsa⟩ := mem_listItems_dirs d.2 (pre ++ d.1 ++ [pathSep]) a ha
    obtain ⟨e, sb, heb, hbs⟩ := mem_walkDirs rest pre b hb
    rw [hsa, hbs] at he
    have hesep : pathSep ∉ e.1 := (wfChildren_mem rest hch' e heb).1
    have he' : pre ++ (d.1 ++ pathSep :: sa) =
        pre ++ (e.1 ++ pathSep :: (sb ++ pathSep :: s)) := by
      have h1 : (pre ++ d.1 ++ [pathSep]) ++ sa = pre ++ (d.1 ++ pathSep :: sa) := by
        simp
      have h2 : (pre ++ e.1 ++ pathSep :: sb) ++ pathSep :: s =
          pre ++ (e.1 ++ pathSep :: (sb ++ pathSep :: s)) := by
        simp
      rw [← h1, ← h2]; exact he
    have hde : d.1 = e.1 :=
      seg_append_inj d.1 e.1 sa (sb ++ pathSep :: s) hdsep' hesep
        (List.append_cancel_left he')
    apply hd_nin
    rw [hde]
    exact List.mem_map_of_mem Prod.fst heb

end

/-! ## Lemmas for the encrypted framed transport -/

theorem lor_shiftLeft_eq_add (s : Nat) : ∀ (x b : Nat), x < 2 ^ s →
    x ||| (b <<< s) = x + b * 2 ^ s := by
  induction s with
  | zero =>
      intro x b hx
      interval_cases x
      simp [Nat.shiftLeft_zero]
  | succ s ih =>
      intro x b hx
      have hx2 : x / 2 < 2 ^ s := by
        have h2 : 2 ^ (s + 1) = 2 * 2 ^ s := by ring
        omega
      have hbit : Nat.bit (Nat.bodd x) (Nat.div2 x) = x := Nat.bit_decomp x
      have hshift : b <<< (s + 1) = Nat.bit false (b <<< s) := by
        rw [Nat.bit_val]
        simp [Nat.shiftLeft_succ]
      rw [← hbit, hshift, Nat.lor_bit, Bool.or_false]
      rw [Nat.div2_val, ih (x / 2) b hx2]
      rw [Nat.bit_val, Nat.bit_val]
      have hb : (Nat.bodd x).toNat + 2 * (x / 2) = x := by
        have := Nat.bodd_add_div2 x
        rw [Nat.div2_val] at this
        omega
      have hb2 : b * 2 ^ (s + 1) = 2 * (b * 2 ^ s) := by ring
      omega

theorem uvarintCore_putUvarint (n : Nat) : ∀ (i s x : Nat) (pad : List Nat),
    x < 2 ^ s → n < 2 ^ (7 * (9 - i) + 1) → i ≤ 9 →
    uvarintCore (putUvarint n ++ pad) i s x =
      some (x + n * 2 ^ s, i + (putUvarint n).length) := by
  induction n using Nat.strong_induction_on with
  | _ n ih =>
    intro i s x pad hx hn hi
    by_cases h128 : n < 128
    · rw [putUvarint, dif_pos h128]
      rw [List.cons_append, List.nil_append, uvarintCore, if_pos h128]
      have hnine : ¬(i = 9 ∧ n > 1) := by
        rintro ⟨rfl, hgt⟩
        norm_num at hn
        omega
      rw [if_neg hnine, lor_shiftLeft_eq_add s x n hx]
      simp
    · rw [putUvarint, dif_neg h128]
      rw [List.cons_append, uvarintCore]
      have hb : ¬(n % 128 + 128 < 128) := by omega
      rw [if_neg hb]
      have hmod : (n % 128 + 128) % 128 = n % 128 := by omega
      rw [hmod, lor_shiftLeft_eq_add s x (n % 128) hx]
      have hxlt : x + n % 128 * 2 ^ s < 2 ^ (s + 7) := by
        have h1 : n % 128 ≤ 127 := by omega
        have h2 : n % 128 * 2 ^ s ≤ 127 * 2 ^ s := Nat.mul_le_mul_right _ h1
        have hp : 2 ^ (s + 7) = 128 * 2 ^ s := by ring
        omega
      have hi' : i + 1 ≤ 9 := by
        rcases Nat.lt_or_ge i 9 with h | h
        · omega
        · have : i = 9 := by omega
          subst this
          norm_num at hn
          omega
      have hn' : n / 128 < 2 ^ (7 * (9 - (i + 1)) + 1) := by
        have h9 : 9 - i = 9 - (i + 1) + 1 := by omega
        rw [h9] at hn
        have he : 7 * (9 - (i + 1) + 1) + 1 = 7 * (9 - (i + 1)) + 1 + 7 := by ring
        rw [he] at hn
        have hp : 2 ^ (7 * (9 - (i + 1)) + 1 + 7) = 2 ^ (7 * (9 - (i + 1)) + 1) * 128 := by
          ring
        rw [hp] at hn
        omega
      rw [ih (n / 128) (Nat.div_lt_self (by omega) (by omega)) (i + 1) (s + 7)
        (x + n % 128 * 2 ^ s) pad hxlt hn' hi']
      have e1 : x + n % 128 * 2 ^ s + n / 128 * 2 ^ (s + 7) = x + n * 2 ^ s := by
        have hpow : 2 ^ (s + 7) = 128 * 2 ^ s := by ring
        have hsplit : n % 128 + 128 * (n / 128) = n := by omega
        calc x + n % 128 * 2 ^ s + n / 128 * 2 ^ (s + 7)
            = x + (n % 128 + 128 * (n / 128)) * 2 ^ s := by rw [hpow]; ring
          _ = x + n * 2 ^ s := by rw [hsplit]
      rw [e1]
      have e2 : i + 1 + (putUvarint (n / 128)).length
          = i + ((n % 128 + 128) :: putUvarint (n / 128)).length := by
        simp only [List.length_cons]
        omega
      rw [e2]

theorem putUvarint_length_le : ∀ (k n : Nat), n < 2 ^ (7 * k + 7) →
    (putUvarint n).length ≤ k + 1 := by
  intro k
  induction k with
  | zero =>
      intro n hn
      norm_num at hn
      rw [putUvarint, dif_pos hn]
      simp
  | succ k ih =>
      intro n hn
      by_cases h128 : n < 128
      · rw [putUvarint, dif_pos h128]
        simp
      · rw [putUvarint, dif_neg h128]
        simp only [List.length_cons]
        have hd : n / 128 < 2 ^ (7 * k + 7) := by
          have he : 7 * (k + 1) + 7 = 7 * k + 7 + 7 := by ring
          rw [he] at hn
          have hp : 2 ^ (7 * k + 7 + 7) = 2 ^ (7 * k + 7) * 128 := by ring
          rw [hp] at hn
          omega
        have := ih (n / 128) hd
        omega

theorem putUvarint_length_le_ten (n : Nat) (hn : n < 2 ^ 64) :
    (putUvarint n).length ≤ 10 := by
  have h : n < 2 ^ (7 * 9 + 7) := lt_of_lt_of_le hn (by norm_num)
  exact putUvarint_length_le 9 n h

theorem uvarintBuf_length (n : Nat) (hn : n < 2 ^ 64) :
    (uvarintBuf n).length = 10 := by
  have h := putUvarint_length_le_ten n hn
  simp [uvarintBuf]
  omega

theorem uvarint_uvarintBuf (n : Nat) (hn : n < 2 ^ 64) :
    uvarint (uvarintBuf n) = some (n, (putUvarint n).length) := by
  have h := uvarintCore_putUvarint n 0 0 0
    (List.replicate (10 - (putUvarint n).length) 0) (by norm_num)
    (by norm_num; exact hn) (by norm_num)
  simpa [uvarint, uvarintBuf] using h

theorem readLength_frame (n : Nat) (rest : List Nat) (hn : n < 2 ^ 64) :
    readLength (uvarintBuf n ++ rest) = some (n, rest) := by
  have hlen := uvarintBuf_length n hn
  rw [readLength, if_pos (by simp [hlen])]
  have htake : (uvarintBuf n ++ rest).take 10 = uvarintBuf n := by
    rw [← hlen]
    exact List.take_left _ _
  have hdrop : (uvarintBuf n ++ rest).drop 10 = rest := by
    rw [← hlen]
    exact List.drop_left _ _
  rw [htake, hdrop, uvarint_uvarintBuf n hn]

theorem xorStream_length (ks : Nat → Nat) : ∀ (i : Nat) (l : List Nat),
    (xorStream ks i l).length = l.length := by
  intro i l
  induction l generalizing i with
  | nil => rfl
  | cons b rest ih => simp [xorStream, ih]

theorem xorStream_xorStream (ks : Nat → Nat) : ∀ (i : Nat) (l : List Nat),
    xorStream ks i (xorStream ks i l) = l := by
  intro i l
  induction l generalizing i with
  | nil => rfl
  | cons b rest ih =>
      simp only [xorStream, ih]
      rw [Nat.xor_cancel_right]

/-! ## Theorems -/

/-- C6: the claim says the first connection attempt of a session happens
immediately with no sleep.  Evaluating the loop of `createConnections` (which
initializes `firstLoop := false`, so the `!firstLoop` branch sleeps already
on the first iteration) shows the code sleeps 3 s before the first attempt,
then 4 s, 5 s, …, capped at 30 s. -/
theorem createConnections_sleeps_before_first_attempt :
    sleepsBeforeAttempts 1 = [some 3] ∧
    sleepsBeforeAttempts 4 = [some 3, some 4, some 5, some 6] ∧
    sleepsBeforeAttempts 29 = ((List.range 27).map (fun k => some (3 + k))) ++
      [some 30, some 30] := by
  refine ⟨rfl, rfl, ?_⟩
  decide

/-- C7 counterexample: the salt alphabet `letters` has 63 symbols, not 64,
so a salt byte is mapped by `b mod 63`, not `b mod 64`: byte 126 maps to
`letters[126 % 63] = letters[0] = '0'` (48), whereas the claimed `mod 64`
rule would select index `126 % 64 = 62`, i.e. `'-'` (45). -/
theorem saltAlphabet_has_63_symbols :
    letters.length = 63 ∧ saltMapByte 126 = 48 ∧
    letters.getD (126 % 64) 0 = 45 := by
  decide

/-- C7 (amended): each of the 10 random salt bytes `b` is mapped into the
63-symbol alphabet `[0-9A-Za-z-]` by `b mod 63`, and the credential is
`salt || "::" || SHA256(salt || "::" || password)`, of total length 44. -/
theorem sha256WithNewSalt_spec (sha : List Nat → List Nat) (rand data : List Nat)
    (hsha : ∀ x, (sha x).length = 32) (hrand : rand.length = 10) :
    sha256WithNewSalt sha rand data =
      rand.map saltMapByte ++ [58, 58] ++
        sha (rand.map saltMapByte ++ [58, 58] ++ data) ∧
    (sha256WithNewSalt sha rand data).length = 44 ∧
    (∀ b, saltMapByte b = letters.getD (b % 63) 0) := by
  refine ⟨?_, ?_, ?_⟩
  · simp [sha256WithNewSalt, sha256WithPredefinedSalt]
  · simp [sha256WithNewSalt, sha256WithPredefinedSalt, hsha, hrand]
  · intro b
    have h63 : letters.length = 63 := by decide
    simp [saltMapByte, h63]

theorem sha256WithNewSalt_spec_witness :
    (sha256WithNewSalt (fun _ => List.replicate 32 0) (List.replicate 10 65) []).length = 44 :=
  (sha256WithNewSalt_spec (fun _ => List.replicate 32 0) (List.replicate 10 65) []
    (fun _ => by simp) (by simp)).2.1

/-- C9: `WriteFull` reports only the result of the body write: if the body
write succeeds, `WriteFull` returns success, even when the preceding
length-prefix write returned an error. -/
theorem writeFull_discards_length_error {σ : Type}
    (write : σ → List Nat → Option String × σ) (s : σ) (data : List Nat) (e : String)
    (_h1 : (writeLength write s data.length).1 = some e)
    (h2 : (write (writeLength write s data.length).2 data).1 = none) :
    (writeFull write s data).1 = none := by
  simp [writeFull, h2]

theorem writeFull_discards_length_error_witness :
    (writeFull demoWrite 0 [7]).1 = none :=
  writeFull_discards_length_error demoWrite 0 [7] "length write failed" rfl rfl

/-- C2: `handleDelete`  — absent target: success, no state change; existing
target with `modTime ≥ delTime`: success, file and tombstone table
unchanged; existing target with `modTime < delTime`: the path is recursively
removed and `delTime` is recorded under `relPath` in the tombstone table. -/
theorem handleDelete_spec (st : ServerFS) (relPath : String) (delTime : Int) :
    (lookupTime st.files relPath = none → handleDelete st relPath delTime = st) ∧
    (∀ m, lookupTime st.files relPath = some m → delTime ≤ m →
      handleDelete st relPath delTime = st) ∧
    (∀ m, lookupTime st.files relPath = some m → m < delTime →
      handleDelete st relPath delTime =
        { files := removeAll st.files relPath
          tombs := setTime st.tombs relPath delTime }) := by
  refine ⟨?_, ?_, ?_⟩
  · intro h; simp [handleDelete, h]
  · intro m hm hle
    simp [handleDelete, hm, show ¬(m < delTime) from not_lt.2 hle]
  · intro m hm hlt
    simp [handleDelete, hm, hlt]

theorem handleDelete_spec_witness :
    handleDelete ⟨[("a", 3)], []⟩ "a" 5 = ⟨[], [("a", 5)]⟩ := by
  have h := (handleDelete_spec ⟨[("a", 3)], []⟩ "a" 5).2.2 3 (by rfl) (by norm_num)
  rw [h]; decide

/-- C1: in the UPDATE-with-ping sub-protocol the responder replies
`sendFile = true` iff its local file's modification time is strictly before
the initiator's `modTime` or the file did not exist before the ping opened
it; `sendFile = false` leaves the state unchanged; a transfer sets the
responder's modification time to the initiator's `modTime`; equal timestamps
produce no transfer. -/
theorem handleUpdateWithPing_spec (files : List (String × Int)) (relPath : String)
    (reqMod now : Int) :
    ∀ send files',
      handleUpdateWithPing files relPath relPath reqMod now = some (send, files') →
      ((send = true) ↔ (lookupTime files relPath = none ∨
        ∃ m, lookupTime files relPath = some m ∧ m < reqMod)) ∧
      (send = false → files' = files) ∧
      (send = true → lookupTime files' relPath = some reqMod) ∧
      (lookupTime files relPath = some reqMod → send = false) := by
  intro send files' h
  cases hl : lookupTime files relPath with
  | none =>
      simp [handleUpdateWithPing, hl, lookupTime_setTime_self] at h
      obtain ⟨hs, hf⟩ := h
      subst hs hf
      refine ⟨by simp, by simp, fun _ => ?_, by simp⟩
      exact lookupTime_setTime_self _ _ _
  | some m =>
      by_cases hm : m < reqMod
      · simp [handleUpdateWithPing, hl, hm] at h
        obtain ⟨hs, hf⟩ := h
        subst hs hf
        refine ⟨?_, by simp, fun _ => lookupTime_setTime_self _ _ _, ?_⟩
        · constructor
          · intro _; exact Or.inr ⟨m, rfl, hm⟩
          · intro _; rfl
        · intro hq
          injection hq with he
          exact absurd hm (by omega)
      · simp [handleUpdateWithPing, hl, hm] at h
        obtain ⟨hs, hf⟩ := h
        subst hs hf
        refine ⟨?_, fun _ => rfl, by simp, fun _ => rfl⟩
        constructor
        · intro h'; exact absurd h' (by simp)
        · rintro (hnone | ⟨m', hm', hlt⟩)
          · exact absurd hnone (by simp)
          · injection hm' with he
            subst he
            exact absurd hlt hm

theorem handleUpdateWithPing_spec_witness :
    lookupTime [("a", (9 : Int))] "a" = some 9 :=
  (handleUpdateWithPing_spec [("a", 7)] "a" 9 0 true [("a", 9)] (by decide)).2.2.1 rfl

/-- C5 counterexample: the responder does not validate paths.  The relative
path `"x/../y"` differs from its normalization, yet the responder's DELETE
handler applies it — removing the entry and recording a tombstone — and
returns success instead of rejecting the request with an error.
(`Server.handleRequests` dispatches without any path check.) -/
theorem responder_applies_unclean_path :
    cleanPath "x/../y" ≠ "x/../y" ∧
    handleDelete ⟨[("x/../y", 1)], []⟩ "x/../y" 5 = ⟨[], [("x/../y", 5)]⟩ := by
  constructor
  · decide
  · decide

/-- C5 (amended): path validation happens on the initiator, not the
responder: `Tunnel.handleEvent` rejects any event whose root-relative path
differs from its own normalization with the "Path not clean" error, sending
nothing and leaving the tombstone table unchanged. -/
theorem tunnelHandleEvent_rejects_unclean (env : TunnelEnv) (root rest : String)
    (op : FsOp) (tombs : List (String × Int))
    (hroot : root ≠ "") (hclean : cleanPath rest ≠ rest) :
    handleEvent env root (root ++ rest) op tombs = ([], tombs, some "Path not clean") := by
  simp [handleEvent, trimPrefix_append, ne_append_self root rest hroot, hclean]

theorem tunnelHandleEvent_rejects_unclean_witness :
    handleEvent demoEnv "r/" ("r/" ++ "x/../y") .Write [] =
      ([], [], some "Path not clean") :=
  tunnelHandleEvent_rejects_unclean demoEnv "r/" "x/../y" .Write [] (by decide) (by decide)

/-- C8: during initial sync, `Watch` emits requests in three strictly
ordered phases — CREATE_DIR for every enumerated directory, then DELETE for
every tombstone-table entry, then the UPDATE sub-protocol (UPDATE_PING
followed by UPDATE) for every enumerated file — with the later phases
entirely after the earlier ones, as witnessed by the trace being the literal
concatenation of the three phase traces. -/
theorem watchInitialSync_phases (env : TunnelEnv) (root : String)
    (dirs files : List String) (tombs0 : List (String × Int))
    (hroot : root ≠ "")
    (hnod : (tombs0.map Prod.fst).Nodup)
    (hd : ∀ d ∈ dirs, cleanPath d = d ∧ d ≠ "" ∧ d ≠ "." ∧
      env.stat d = some true ∧ tombs0.lookup d = none)
    (ht : ∀ q ∈ tombs0, cleanPath q.1 = q.1 ∧ q.1 ≠ "" ∧ q.1 ≠ ".")
    (hf : ∀ f ∈ files, cleanPath f = f ∧ f ≠ "" ∧ f ≠ "." ∧
      env.pingOK f = true ∧ env.openOK f = true) :
    (watchInitialSync env root dirs files tombs0).1 =
      dirs.map (fun d => ⟨ReqType.CREATE_DIR, d, env.modTimeOf d, 0⟩) ++
      tombs0.map (fun q => ⟨ReqType.DELETE, q.1, 0, q.2⟩) ++
      files.flatMap (fun f =>
        [⟨ReqType.UPDATE_PING, f, 0, 0⟩,
          ⟨ReqType.UPDATE, f, env.modTimeOf f, 0⟩]) ∧
    (watchInitialSync env root dirs files tombs0).2.2 = none := by
  have h1 := runEvents_create env root dirs tombs0 hroot hd
  have h2 := runEvents_remove env root tombs0 tombs0 hroot
    (fun q hq => ⟨(ht q hq).1, (ht q hq).2.1, (ht q hq).2.2,
      lookup_eq_of_mem_nodup tombs0 q hnod hq⟩)
  have h3 := runEvents_write env root files tombs0 hroot hf
  constructor
  · simp only [watchInitialSync, h1, h2, h3.1]
    try simp
  · simp only [watchInitialSync, h1, h2, h3.2]
    try simp

theorem watchInitialSync_phases_witness :
    (watchInitialSync demoEnv "r/" ["d"] ["f"] [("old", 5)]).1 =
      [⟨ReqType.CREATE_DIR, "d", 0, 0⟩, ⟨ReqType.DELETE, "old", 0, 5⟩,
        ⟨ReqType.UPDATE_PING, "f", 0, 0⟩, ⟨ReqType.UPDATE, "f", 0, 0⟩] := by
  have h := (watchInitialSync_phases demoEnv "r/" ["d"] ["f"] [("old", 5)]
    (by decide) (by simp) (by decide) (by decide) (by decide)).1
  rw [h]
  rfl

/-- C10: in the `dirs` sequence returned by `ListItems`, every parent
directory appears strictly before any of its sub-directories: whenever entry
`j` is a strict path-extension (`parent ++ "/" ++ rest`) of entry `i`, then
`i < j`; so replaying CREATE_DIR in enumeration order never needs a child
before its parent.  Hypothesis: the tree is a real directory tree (sibling
names distinct, no separator inside a name). -/
theorem listItems_dirs_preorder (t : FSTree) (relPath : List Char)
    (hwf : wfTree t = true) :
    ∀ (i j : Nat) (hi : i < (listItems t relPath).2.length)
      (hj : j < (listItems t relPath).2.length) (s : List Char),
      (listItems t relPath).2.get ⟨j, hj⟩ =
        (listItems t relPath).2.get ⟨i, hi⟩ ++ pathSep :: s → i < j := by
  intro i j hi hj s he
  by_contra hij
  rcases Nat.lt_or_ge j i with hlt | hge
  · have hp := List.pairwise_iff_get.mp (listItems_dirs_pairwise t relPath hwf)
      ⟨j, hj⟩ ⟨i, hi⟩ hlt
    exact hp s he
  · have hij' : i = j := by omega
    subst hij'
    have := congrArg List.length he
    simp at this

theorem listItems_dirs_preorder_witness : (0 : Nat) < 1 :=
  listItems_dirs_preorder demoTree [] (by decide) 0 1 (by decide) (by decide)
    ['b'] (by decide)

/-- C3: round-trip identity of the encrypted framed transport: for every
message `m` of at most `2^32` bytes and any keys and IV used on both ends,
reading back the frame produced by `WriteEncryptedFull(m)` yields exactly
`m` (in particular the MAC comparison succeeds).  Quantified over all
keystream and MAC functions, hence valid for AES-256-OFB and HMAC-SHA256. -/
theorem readEncryptedFull_writeEncryptedFull (ofb : List Nat → List Nat → Nat → Nat)
    (hmac : List Nat → List Nat → List Nat) (encKey macKey iv m : List Nat)
    (hiv : iv.length = 16) (hH : ∀ x, (hmac macKey x).length = 32)
    (hm : m.length ≤ 2 ^ 32) :
    readEncryptedFull ofb hmac encKey macKey
      (writeEncryptedFull ofb hmac encKey macKey iv m) = some m := by
  have hm64 : m.length < 2 ^ 64 := by
    have h : (2 : Nat) ^ 32 < 2 ^ 64 := by norm_num
    omega
  set ct := xorStream (ofb encKey iv) 0 m with hct
  set tag := hmac macKey m with htag
  have hctlen : ct.length = m.length := xorStream_length _ 0 m
  have htaglen : tag.length = 32 := hH m
  have hframe : writeEncryptedFull ofb hmac encKey macKey iv m =
      uvarintBuf m.length ++ (iv ++ (ct ++ tag)) := by
    simp [writeEncryptedFull, writeEncryptedStream, List.append_assoc]
  have h16 : (16 : Nat) ≤ (iv ++ (ct ++ tag)).length := by simp [hiv]
  have htake16 : (iv ++ (ct ++ tag)).take 16 = iv := by
    rw [← hiv]; exact List.take_left _ _
  have hdrop16 : (iv ++ (ct ++ tag)).drop 16 = ct ++ tag := by
    rw [← hiv]; exact List.drop_left _ _
  have hsize : m.length < 2 ^ 63 := by
    have h : (2 : Nat) ^ 32 < 2 ^ 63 := by norm_num
    omega
  have hcount : m.length ≤ (ct ++ tag).length := by simp [hctlen]
  have htakeCt : (ct ++ tag).take m.length = ct := by
    rw [← hctlen]; exact List.take_left _ _
  have hdropCt : (ct ++ tag).drop m.length = tag := by
    rw [← hctlen]; exact List.drop_left _ _
  have h32 : (32 : Nat) ≤ tag.length := by omega
  have htakeTag : tag.take 32 = tag := List.take_of_length_le (by omega)
  have hpt : xorStream (ofb encKey iv) 0 ct = m := by
    rw [hct]; exact xorStream_xorStream _ 0 m
  rw [readEncryptedFull, hframe, readEncryptedStream,
    readLength_frame m.length (iv ++ (ct ++ tag)) hm64]
  have hsize' : m.length < 9223372036854775808 := by omega
  simp [h16, hsize', hcount, h32, htake16, hdrop16, htakeCt, hdropCt, hpt, htakeTag]
  omega

theorem readEncryptedFull_writeEncryptedFull_witness :
    readEncryptedFull demoOfb demoHmac [1] [2]
      (writeEncryptedFull demoOfb demoHmac [1] [2] (List.replicate 16 0) [10, 20, 30]) =
      some [10, 20, 30] :=
  readEncryptedFull_writeEncryptedFull demoOfb demoHmac [1] [2]
    (List.replicate 16 0) [10, 20, 30] (by simp) (fun x => by simp [demoHmac])
    (by norm_num)

/-- C4: the 32-byte tag appended to every encrypted frame equals
`hmac macKey plaintext` — the MAC of the plaintext fed to the cipher stream,
not of the ciphertext (the statement quantifies over every keystream
function, so the tag cannot depend on the ciphertext); and on read, a frame
whose trailing 32 bytes differ from the locally computed MAC of the
decrypted plaintext is rejected with an error before being accepted (the
"hashes do not match" abort). -/
theorem encryptedFrame_mac_spec (ofb : List Nat → List Nat → Nat → Nat)
    (hmac : List Nat → List Nat → List Nat) (encKey macKey iv m ct tag : List Nat)
    (hiv : iv.length = 16) (hm : m.length < 2 ^ 64)
    (hct : ct.length < 2 ^ 63) (htag : tag.length = 32)
    (hbad : tag ≠ hmac macKey (xorStream (ofb encKey iv) 0 ct)) :
    (writeEncryptedFull ofb hmac encKey macKey iv m).drop (26 + m.length) =
      hmac macKey m ∧
    readEncryptedStream ofb hmac encKey macKey
      (uvarintBuf ct.length ++ (iv ++ (ct ++ tag))) = none := by
  constructor
  · have hpre : (uvarintBuf m.length ++ iv ++ xorStream (ofb encKey iv) 0 m).length =
        26 + m.length := by
      simp [uvarintBuf_length m.length hm, hiv, xorStream_length]
      omega
    have hframe : writeEncryptedFull ofb hmac encKey macKey iv m =
        (uvarintBuf m.length ++ iv ++ xorStream (ofb encKey iv) 0 m) ++ hmac macKey m := by
      simp [writeEncryptedFull, writeEncryptedStream]
    rw [hframe, ← hpre, List.drop_left]
  · have hct64 : ct.length < 2 ^ 64 := by
      have h : (2 : Nat) ^ 63 < 2 ^ 64 := by norm_num
      omega
    have h16 : (16 : Nat) ≤ (iv ++ (ct ++ tag)).length := by simp [hiv]
    have htake16 : (iv ++ (ct ++ tag)).take 16 = iv := by
      rw [← hiv]; exact List.take_left _ _
    have hdrop16 : (iv ++ (ct ++ tag)).drop 16 = ct ++ tag := by
      rw [← hiv]; exact List.drop_left _ _
    have hcount : ct.length ≤ (ct ++ tag).length := by simp
    have htakeCt : (ct ++ tag).take ct.length = ct := List.take_left _ _
    have hdropCt : (ct ++ tag).drop ct.length = tag := List.drop_left _ _
    have h32 : (32 : Nat) ≤ tag.length := by omega
    have htakeTag : tag.take 32 = tag := List.take_of_length_le (by omega)
    have hsize' : ct.length < 9223372036854775808 := by omega
    rw [readEncryptedStream, readLength_frame ct.length (iv ++ (ct ++ tag)) hct64]
    simp [h16, hsize', hcount, h32, htake16, hdrop16, htakeCt, hdropCt, htakeTag, hbad]

theorem encryptedFrame_mac_spec_witness :
    (writeEncryptedFull demoOfb demoHmac [1] [2] (List.replicate 16 0) [9]).drop 27 =
      demoHmac [2] [9] ∧
    readEncryptedStream demoOfb demoHmac [1] [2]
      (uvarintBuf 1 ++ (List.replicate 16 0 ++ ([5] ++ List.replicate 32 2))) = none := by
  have h := encryptedFrame_mac_spec demoOfb demoHmac [1] [2] (List.replicate 16 0)
    [9] [5] (List.replicate 32 2) (by simp) (by norm_num) (by norm_num) (by simp)
    (by decide)
  simpa using h

end SimpleSync
